import Mathlib

/-!
Shallow embedding of the Aliev-Panfilov 2D heterogeneous-spiral solver
(AP_2D_HeteroSpiral.py).  Fields are total functions on `Fin nx × Fin ny`
with exact rational values; numpy's in-place sequential assignments are
modelled by explicit function composition in the source's order, and
Python slice semantics (negative-index wrap, clamping to the axis length)
are modelled explicitly so that out-of-range stimulus sites behave exactly
as the numpy slices do.
-/

/-- A 2D field of shape nx × ny, as in the numpy arrays `u`, `v`, `D`. -/
abbrev F (nx ny : ℕ) := Fin nx → Fin ny → ℚ

/-- The module-level configuration of AP_2D_HeteroSpiral.py (lines 12-33):
model parameters, grid/time parameters and stimulus parameters. -/
structure Params where
  D0 : ℚ
  Dfac : ℚ
  a : ℚ
  b : ℚ
  k : ℚ
  epsilon_0 : ℚ
  mu1 : ℚ
  mu2 : ℚ
  dx : ℚ
  dt : ℚ
  tfin : ℚ
  stimulus_positions : List (ℤ × ℤ)
  stimulus_times : List ℚ
  stimulus_duration : ℚ
  stimulus_amplitude : ℚ

/-- `time_steps = int(tfin / dt)` (line 27).  Python `int` truncates toward
zero and `range` of a non-positive count is empty, so casting through
`Int.toNat` gives the number of loop iterations actually executed. -/
def time_steps (p : Params) : ℕ := (⌊p.tfin / p.dt⌋).toNat

/-- `np.zeros((nx, ny))` (lines 36-37). -/
def zeroF (nx ny : ℕ) : F nx ny := fun _ _ => 0

/-- `D = D0 * np.ones((nx, ny))` followed by
`D[4*nx//10:5*nx//10, 4*ny//10:5*ny//10] *= Dfac` (lines 40-41):
the sub-rectangle holds `D0 * Dfac`, everywhere else `D0`. -/
def buildD (nx ny : ℕ) (D0 Dfac : ℚ) : F nx ny := fun i j =>
  if (4 * nx / 10 ≤ i.val ∧ i.val < 5 * nx / 10) ∧
     (4 * ny / 10 ≤ j.val ∧ j.val < 5 * ny / 10) then D0 * Dfac else D0

/-- `arr[0, :] = arr[-2, :]` (line 53). -/
def setRowFirst {nx ny : ℕ} (arr : F nx ny) : F nx ny := fun i j =>
  if i.val = 0 then arr ⟨nx - 2, by have h := i.isLt; omega⟩ j else arr i j

/-- `arr[-1, :] = arr[1, :]` (line 54); row index 1 exists whenever nx ≥ 2,
the `% nx` keeps the definition total (Python raises for nx ≤ 1). -/
def setRowLast {nx ny : ℕ} (arr : F nx ny) : F nx ny := fun i j =>
  if i.val = nx - 1 then arr ⟨1 % nx, Nat.mod_lt 1 i.pos⟩ j else arr i j

/-- `arr[:, 0] = arr[:, -2]` (line 55). -/
def setColFirst {nx ny : ℕ} (arr : F nx ny) : F nx ny := fun i j =>
  if j.val = 0 then arr i ⟨ny - 2, by have h := j.isLt; omega⟩ else arr i j

/-- `arr[:, -1] = arr[:, 1]` (line 56). -/
def setColLast {nx ny : ℕ} (arr : F nx ny) : F nx ny := fun i j =>
  if j.val = ny - 1 then arr i ⟨1 % ny, Nat.mod_lt 1 j.pos⟩ else arr i j

/-- `apply_periodic_boundary` (lines 52-56): the four in-place assignments,
in source order; each later assignment reads the already-updated array. -/
def apply_periodic_boundary {nx ny : ℕ} (arr : F nx ny) : F nx ny :=
  setColLast (setColFirst (setRowLast (setRowFirst arr)))

/-- `epsilon(u, v) = epsilon_0 + (mu1 * v) / (u + mu2)` (lines 59-60). -/
def epsilon (p : Params) (uu vv : ℚ) : ℚ :=
  p.epsilon_0 + (p.mu1 * vv) / (uu + p.mu2)

/-- One effective bound of a Python slice `[a:b]` (step 1) on an axis of
length n: a negative index has n added, then the result is clamped
into [0, n]. -/
def sliceBound (a : ℤ) (n : ℕ) : ℕ :=
  min ((if a < 0 then a + n else a).toNat) n

/-- Membership of index m in the Python slice `[a:b]` on an axis of
length n. -/
def inSlice (a b : ℤ) (n : ℕ) (m : ℕ) : Prop :=
  sliceBound a n ≤ m ∧ m < sliceBound b n

instance (a b : ℤ) (n m : ℕ) : Decidable (inSlice a b n m) :=
  inferInstanceAs (Decidable (sliceBound a n ≤ m ∧ m < sliceBound b n))

/-- `u[i-1:i+2, j-1:j+2] += stimulus_amplitude` for one site (line 67),
with Python slice semantics on both axes. -/
def stim_apply_site {nx ny : ℕ} (amp : ℚ) (u : F nx ny) (ij : ℤ × ℤ) :
    F nx ny := fun i j =>
  if inSlice (ij.1 - 1) (ij.1 + 2) nx i.val ∧
     inSlice (ij.2 - 1) (ij.2 + 2) ny j.val then u i j + amp else u i j

/-- `apply_stimuli(u, t, dt)` (lines 63-67): for every configured onset whose
half-open window contains t, add the amplitude on the 3×3 slice around
every configured site. -/
def apply_stimuli (p : Params) {nx ny : ℕ} (u : F nx ny) (t : ℚ) : F nx ny :=
  p.stimulus_times.foldl (fun uu st =>
    if st ≤ t ∧ t < st + p.stimulus_duration then
      p.stimulus_positions.foldl (stim_apply_site p.stimulus_amplitude) uu
    else uu) u

/-- The update core of `runge_kutta_step` (lines 70-94): both derivatives are
computed from the entry values (`u_old`, `v_old` are copies, line 71), and
only the interior slice `[1:-1, 1:-1]` is written.  The diffusion
coefficient is read at the target cell `D[1:-1, 1:-1]` itself. -/
def rk_core (p : Params) {nx ny : ℕ} (D u v : F nx ny) :
    F nx ny × F nx ny :=
  (fun i j =>
    if h : 1 ≤ i.val ∧ i.val + 1 < nx ∧ 1 ≤ j.val ∧ j.val + 1 < ny then
      u i j + p.dt *
        (D i j * (u ⟨i.val - 1, by omega⟩ j + u ⟨i.val + 1, by omega⟩ j +
            u i ⟨j.val - 1, by omega⟩ + u i ⟨j.val + 1, by omega⟩ -
            4 * u i j) / p.dx ^ 2 +
          p.k * u i j * (u i j - p.a) * (1 - u i j) - u i j * v i j)
    else u i j,
   fun i j =>
    if 1 ≤ i.val ∧ i.val + 1 < nx ∧ 1 ≤ j.val ∧ j.val + 1 < ny then
      v i j + p.dt *
        (epsilon p (u i j) (v i j) *
          (-(v i j) - p.k * u i j * (u i j - p.b - 1)))
    else v i j)

/-- The evolving state: the two fields plus the diffusion map (held in the
state so that its immutability across steps is a provable statement). -/
@[ext]
structure SimState (nx ny : ℕ) where
  u : F nx ny
  v : F nx ny
  D : F nx ny

/-- Module initialization (lines 12-49): zero fields, heterogeneous
diffusion map; the optional initial-condition writes (lines 48-49) assign
zeros to zero fields, hence are no-ops.  No validation of any kind is
performed by the source. -/
def initState (p : Params) (nx ny : ℕ) : SimState nx ny :=
  ⟨zeroF nx ny, zeroF nx ny, buildD nx ny p.D0 p.Dfac⟩

/-- `runge_kutta_step(u, v, t)` in full (lines 70-100): interior update,
periodic boundary on both fields, then stimuli on `u`. -/
def runge_kutta_step (p : Params) {nx ny : ℕ} (s : SimState nx ny)
    (t : ℚ) : SimState nx ny :=
  let uv := rk_core p s.D s.u s.v
  let u2 := apply_periodic_boundary uv.1
  let v2 := apply_periodic_boundary uv.2
  ⟨apply_stimuli p u2 t, v2, s.D⟩

/-- The state after n driver iterations from an arbitrary start state,
step index n executed at simulated time `t = n * dt` (line 106). -/
def stateFrom (p : Params) {nx ny : ℕ} (s0 : SimState nx ny) :
    ℕ → SimState nx ny
  | 0 => s0
  | n + 1 => runge_kutta_step p (stateFrom p s0 n) ((n : ℚ) * p.dt)

/-- The state after n driver iterations from the initial state. -/
def stateAt (p : Params) (nx ny : ℕ) (n : ℕ) : SimState nx ny :=
  stateFrom p (initState p nx ny) n

/-- One iteration of the driver loop (lines 105-111): advance the state,
and append `u.copy()` when `step % 50 == 0`. -/
def stepFold (p : Params) {nx ny : ℕ}
    (acc : SimState nx ny × List (F nx ny)) (step : ℕ) :
    SimState nx ny × List (F nx ny) :=
  let s := runge_kutta_step p acc.1 ((step : ℚ) * p.dt)
  (s, if step % 50 = 0 then acc.2 ++ [s.u] else acc.2)

/-- The driver loop (lines 103-111): fold over `range(time_steps)`,
returning the accumulated list of snapshot frames. -/
def simulate (p : Params) (nx ny : ℕ) : List (F nx ny) :=
  ((List.range (time_steps p)).foldl (stepFold p)
    (initState p nx ny, ([] : List (F nx ny)))).2

/-- The reference configuration of the source module (lines 12-33), with
the float literals read as exact rationals. -/
def refP : Params :=
  { D0 := 1/20
    Dfac := 1/10
    a := 1/100
    b := 3/20
    k := 8
    epsilon_0 := 1/500
    mu1 := 1/5
    mu2 := 3/10
    dx := 1/10
    dt := 1/100
    tfin := 100
    stimulus_positions := [(200, 200)]
    stimulus_times := [1/2, 2]
    stimulus_duration := 1/10
    stimulus_amplitude := 1 }

/-- The single-stimulus configuration of claim C3: one onset at 0.5 s. -/
def cfgC3 : Params := { refP with stimulus_times := [1/2] }

/-- Configuration with a stimulus site on the low grid edge (row 0). -/
def cfgLow : Params :=
  { refP with stimulus_positions := [(0, 200)], stimulus_times := [1/2] }

/-- Configuration with a stimulus site on the high grid edge (row nx-1). -/
def cfgHigh : Params :=
  { refP with stimulus_positions := [(499, 200)], stimulus_times := [1/2] }

/-- Configuration with an empty stimulus list, for the zero-fixed-point
witness. -/
def cfgNoStim : Params := { refP with stimulus_times := [] }

/-- Pointwise unfolding of `setRowFirst`. -/
lemma setRowFirst_apply {nx ny : ℕ} (arr : F nx ny) (i : Fin nx)
    (j : Fin ny) :
    setRowFirst arr i j =
      if i.val = 0 then arr ⟨nx - 2, by have h := i.isLt; omega⟩ j
      else arr i j := rfl

/-- Pointwise unfolding of `setRowLast`. -/
lemma setRowLast_apply {nx ny : ℕ} (arr : F nx ny) (i : Fin nx)
    (j : Fin ny) :
    setRowLast arr i j =
      if i.val = nx - 1 then arr ⟨1 % nx, Nat.mod_lt 1 i.pos⟩ j
      else arr i j := rfl

/-- Pointwise unfolding of `setColFirst`. -/
lemma setColFirst_apply {nx ny : ℕ} (arr : F nx ny) (i : Fin nx)
    (j : Fin ny) :
    setColFirst arr i j =
      if j.val = 0 then arr i ⟨ny - 2, by have h := j.isLt; omega⟩
      else arr i j := rfl

/-- Pointwise unfolding of `setColLast`. -/
lemma setColLast_apply {nx ny : ℕ} (arr : F nx ny) (i : Fin nx)
    (j : Fin ny) :
    setColLast arr i j =
      if j.val = ny - 1 then arr i ⟨1 % ny, Nat.mod_lt 1 j.pos⟩
      else arr i j := rfl

/-- The two sequential row assignments read, at row i, the original array
at the remapped row: nx-1 ↦ 1, 0 ↦ nx-2, otherwise unchanged. -/
lemma rowStage_apply {nx ny : ℕ} (arr : F nx ny) (hx : 2 ≤ nx)
    (i : Fin nx) (j : Fin ny) :
    setRowLast (setRowFirst arr) i j =
      arr ⟨if i.val = nx - 1 then 1 else if i.val = 0 then nx - 2 else i.val,
           by have h := i.isLt; split_ifs <;> omega⟩ j := by
  have h1n : 1 % nx = 1 := Nat.mod_eq_of_lt (by omega)
  rw [setRowLast_apply]
  by_cases h1 : i.val = nx - 1
  · rw [if_pos h1, setRowFirst_apply]
    rw [if_neg (by simp [h1n])]
    have he : (⟨1 % nx, Nat.mod_lt 1 i.pos⟩ : Fin nx) =
        ⟨if i.val = nx - 1 then 1 else if i.val = 0 then nx - 2 else i.val,
         by have h := i.isLt; split_ifs <;> omega⟩ := by
      apply Fin.ext; simp [h1n, h1]
    rw [he]
  · rw [if_neg h1, setRowFirst_apply]
    by_cases h0 : i.val = 0
    · rw [if_pos h0]
      have he : (⟨nx - 2, by have h := i.isLt; omega⟩ : Fin nx) =
          ⟨if i.val = nx - 1 then 1 else if i.val = 0 then nx - 2 else i.val,
           by have h := i.isLt; split_ifs <;> omega⟩ := by
        apply Fin.ext
        simp only [h0]
        rw [if_neg (by omega)]; simp
      rw [he]
    · rw [if_neg h0]
      have he : i =
          (⟨if i.val = nx - 1 then 1 else if i.val = 0 then nx - 2 else i.val,
            by have h := i.isLt; split_ifs <;> omega⟩ : Fin nx) := by
        apply Fin.ext; simp [h0, h1]
      rw [← he]

/-- After all four assignments, cell (i, j) holds the original value at the
remapped row and column. -/
lemma apb_apply {nx ny : ℕ} (arr : F nx ny) (hx : 2 ≤ nx) (hy : 2 ≤ ny)
    (i : Fin nx) (j : Fin ny) :
    apply_periodic_boundary arr i j =
      arr ⟨if i.val = nx - 1 then 1 else if i.val = 0 then nx - 2 else i.val,
           by have h := i.isLt; split_ifs <;> omega⟩
          ⟨if j.val = ny - 1 then 1 else if j.val = 0 then ny - 2 else j.val,
           by have h := j.isLt; split_ifs <;> omega⟩ := by
  have h1n : 1 % ny = 1 := Nat.mod_eq_of_lt (by omega)
  show setColLast (setColFirst (setRowLast (setRowFirst arr))) i j = _
  rw [setColLast_apply]
  by_cases h1 : j.val = ny - 1
  · rw [if_pos h1, setColFirst_apply]
    rw [if_neg (by simp [h1n])]
    rw [rowStage_apply arr hx]
    have he : (⟨1 % ny, Nat.mod_lt 1 j.pos⟩ : Fin ny) =
        ⟨if j.val = ny - 1 then 1 else if j.val = 0 then ny - 2 else j.val,
         by have h := j.isLt; split_ifs <;> omega⟩ := by
      apply Fin.ext; simp [h1n, h1]
    rw [he]
  · rw [if_neg h1, setColFirst_apply]
    by_cases h0 : j.val = 0
    · rw [if_pos h0, rowStage_apply arr hx]
      have he : (⟨ny - 2, by have h := j.isLt; omega⟩ : Fin ny) =
          ⟨if j.val = ny - 1 then 1 else if j.val = 0 then ny - 2 else j.val,
           by have h := j.isLt; split_ifs <;> omega⟩ := by
        apply Fin.ext
        simp only [h0]
        rw [if_neg (by omega)]; simp
      rw [he]
    · rw [if_neg h0, rowStage_apply arr hx]
      have he : j =
          (⟨if j.val = ny - 1 then 1 else if j.val = 0 then ny - 2 else j.val,
            by have h := j.isLt; split_ifs <;> omega⟩ : Fin ny) := by
        apply Fin.ext; simp [h0, h1]
      rw [← he]

/-- Congruence helper: the same field at propositionally equal indices. -/
lemma arr_congr {nx ny : ℕ} (arr : F nx ny) {a b c d : ℕ}
    (ha : a < nx) (hb : b < nx) (hc : c < ny) (hd : d < ny)
    (h1 : a = b) (h2 : c = d) : arr ⟨a, ha⟩ ⟨c, hc⟩ = arr ⟨b, hb⟩ ⟨d, hd⟩ := by
  subst h1; subst h2; rfl

/-- Claim C1: one call to the stepper core replaces each interior cell
(1 ≤ i ≤ nx-2, 1 ≤ j ≤ ny-2) of u by the forward-Euler value built from
the local diffusion coefficient D[i,j], the five-point Laplacian of the
pre-step field, the cubic reaction term and the coupling term, and each
interior cell of v by the epsilon-weighted recovery update; all reads are
from the entry values of both fields. -/
theorem rk_interior_update (p : Params) {nx ny : ℕ} (D u v : F nx ny)
    (i : Fin nx) (j : Fin ny)
    (hi1 : 1 ≤ i.val) (hi2 : i.val ≤ nx - 2)
    (hj1 : 1 ≤ j.val) (hj2 : j.val ≤ ny - 2) :
    (rk_core p D u v).1 i j =
      u i j + p.dt *
        (D i j * (u ⟨i.val - 1, by have h := i.isLt; omega⟩ j +
            u ⟨i.val + 1, by have h := i.isLt; omega⟩ j +
            u i ⟨j.val - 1, by have h := j.isLt; omega⟩ +
            u i ⟨j.val + 1, by have h := j.isLt; omega⟩ -
            4 * u i j) / p.dx ^ 2 +
          p.k * u i j * (u i j - p.a) * (1 - u i j) - u i j * v i j) ∧
    (rk_core p D u v).2 i j =
      v i j + p.dt *
        ((p.epsilon_0 + p.mu1 * v i j / (u i j + p.mu2)) *
          (-(v i j) - p.k * u i j * (u i j - p.b - 1))) := by
  have hcond : 1 ≤ i.val ∧ i.val + 1 < nx ∧ 1 ≤ j.val ∧ j.val + 1 < ny := by
    have hi := i.isLt
    have hj := j.isLt
    omega
  constructor
  · show dite _ _ _ = _
    rw [dif_pos hcond]
  · show ite _ _ _ = _
    rw [if_pos hcond]
    rfl

/-- Witness for C1 at a concrete interior cell of a 3 × 3 grid with
constant fields u = 1, v = 2, D = 3 under the reference parameters. -/
theorem rk_interior_update_witness :
    (1 ≤ 1 ∧ 1 ≤ 3 - 2) ∧
    (rk_core refP (fun _ _ => 3) (fun _ _ => 1) (fun _ _ => 2) :
        F 3 3 × F 3 3).1 ⟨1, by omega⟩ ⟨1, by omega⟩ = 49/50 ∧
    (rk_core refP (fun _ _ => 3) (fun _ _ => 1) (fun _ _ => 2) :
        F 3 3 × F 3 3).2 ⟨1, by omega⟩ ⟨1, by omega⟩ = 1622987/812500 := by
  have h := rk_interior_update refP
    (fun _ _ => (3 : ℚ)) (fun _ _ => 1) (fun _ _ => 2)
    (⟨1, by omega⟩ : Fin 3) (⟨1, by omega⟩ : Fin 3)
    (by decide) (by decide) (by decide) (by decide)
  refine ⟨⟨by omega, by omega⟩, ?_, ?_⟩
  · rw [h.1]; norm_num [refP]
  · rw [h.2]; norm_num [refP]

/-- Claim C2: after apply_periodic_boundary returns on an n × n field with
n ≥ 3, row 0 equals row n-2 and row n-1 equals row 1 at every column
(corners included), column 0 equals column n-2 and column n-1 equals
column 1 at every row, and every cell outside the boundary rows/columns
is unchanged. -/
theorem periodic_boundary_contract (n : ℕ) (hn : 3 ≤ n) (arr : F n n) :
    (∀ j : Fin n, apply_periodic_boundary arr ⟨0, by omega⟩ j =
      apply_periodic_boundary arr ⟨n - 2, by omega⟩ j) ∧
    (∀ j : Fin n, apply_periodic_boundary arr ⟨n - 1, by omega⟩ j =
      apply_periodic_boundary arr ⟨1, by omega⟩ j) ∧
    (∀ i : Fin n, apply_periodic_boundary arr i ⟨0, by omega⟩ =
      apply_periodic_boundary arr i ⟨n - 2, by omega⟩) ∧
    (∀ i : Fin n, apply_periodic_boundary arr i ⟨n - 1, by omega⟩ =
      apply_periodic_boundary arr i ⟨1, by omega⟩) ∧
    (∀ i j : Fin n, 1 ≤ i.val → i.val ≤ n - 2 → 1 ≤ j.val → j.val ≤ n - 2 →
      apply_periodic_boundary arr i j = arr i j) := by
  have hx : 2 ≤ n := by omega
  refine ⟨?_, ?_, ?_, ?_, ?_⟩
  · intro j
    rw [apb_apply arr hx hx, apb_apply arr hx hx]
    exact arr_congr arr _ _ _ _
      (by simp only [Fin.val_mk]; split_ifs <;> omega) rfl
  · intro j
    rw [apb_apply arr hx hx, apb_apply arr hx hx]
    exact arr_congr arr _ _ _ _
      (by simp only [Fin.val_mk]; split_ifs <;> first | rfl | contradiction | omega) rfl
  · intro i
    rw [apb_apply arr hx hx, apb_apply arr hx hx]
    exact arr_congr arr _ _ _ _ rfl
      (by simp only [Fin.val_mk]; split_ifs <;> omega)
  · intro i
    rw [apb_apply arr hx hx, apb_apply arr hx hx]
    exact arr_congr arr _ _ _ _ rfl
      (by simp only [Fin.val_mk]; split_ifs <;> first | rfl | contradiction | omega)
  · intro i j h1 h2 h3 h4
    rw [apb_apply arr hx hx]
    have hi := i.isLt
    have hj := j.isLt
    have e1 : (if i.val = n - 1 then 1 else if i.val = 0 then n - 2
        else i.val) = i.val := by split_ifs <;> omega
    have e2 : (if j.val = n - 1 then 1 else if j.val = 0 then n - 2
        else j.val) = j.val := by split_ifs <;> omega
    have hA : (⟨if i.val = n - 1 then 1 else if i.val = 0 then n - 2
        else i.val, by split_ifs <;> omega⟩ : Fin n) = i :=
      Fin.ext e1
    have hB : (⟨if j.val = n - 1 then 1 else if j.val = 0 then n - 2
        else j.val, by split_ifs <;> omega⟩ : Fin n) = j :=
      Fin.ext e2
    rw [hA, hB]

/-- Concrete field used by the boundary-contract witness. -/
def wArr : F 4 4 := fun i j => ((i.val * 4 + j.val : ℕ) : ℚ)

/-- Witness for C2 on a concrete 4 × 4 field. -/
theorem periodic_boundary_contract_witness :
    3 ≤ 4 ∧
    ((∀ j : Fin 4, apply_periodic_boundary wArr ⟨0, by omega⟩ j =
        apply_periodic_boundary wArr ⟨4 - 2, by omega⟩ j) ∧
     (∀ j : Fin 4, apply_periodic_boundary wArr ⟨4 - 1, by omega⟩ j =
        apply_periodic_boundary wArr ⟨1, by omega⟩ j) ∧
     (∀ i : Fin 4, apply_periodic_boundary wArr i ⟨0, by omega⟩ =
        apply_periodic_boundary wArr i ⟨4 - 2, by omega⟩) ∧
     (∀ i : Fin 4, apply_periodic_boundary wArr i ⟨4 - 1, by omega⟩ =
        apply_periodic_boundary wArr i ⟨1, by omega⟩) ∧
     (∀ i j : Fin 4, 1 ≤ i.val → i.val ≤ 4 - 2 → 1 ≤ j.val →
        j.val ≤ 4 - 2 → apply_periodic_boundary wArr i j = wArr i j)) :=
  ⟨by omega, periodic_boundary_contract 4 (by omega) wArr⟩

/-- The active window of a step-indexed time for onset 0.5, duration 0.1,
dt = 0.01 is exactly steps 50 through 59. -/
lemma window_iff (s : ℕ) :
    ((1:ℚ)/2 ≤ (s : ℚ) * (1/100) ∧
     (s : ℚ) * (1/100) < 1/2 + 1/10) ↔ (50 ≤ s ∧ s ≤ 59) := by
  constructor
  · rintro ⟨h1, h2⟩
    have c1 : (50 : ℚ) ≤ (s : ℚ) := by linarith
    have c2 : (s : ℚ) < 60 := by linarith
    have d1 : 50 ≤ s := by exact_mod_cast c1
    have d2 : s < 60 := by exact_mod_cast c2
    exact ⟨d1, by omega⟩
  · rintro ⟨h1, h2⟩
    have c1 : (50 : ℚ) ≤ (s : ℚ) := by exact_mod_cast h1
    have c2 : (s : ℚ) ≤ 59 := by exact_mod_cast h2
    constructor <;> linarith

/-- apply_stimuli for a configuration holding a single onset and a single
site reduces to one guarded slice update. -/
lemma apply_stimuli_single (p : Params) {nx ny : ℕ} (st : ℚ)
    (pos : ℤ × ℤ) (hts : p.stimulus_times = [st])
    (hps : p.stimulus_positions = [pos]) (u : F nx ny) (t : ℚ) :
    apply_stimuli p u t =
      if st ≤ t ∧ t < st + p.stimulus_duration then
        stim_apply_site p.stimulus_amplitude u pos
      else u := by
  simp [apply_stimuli, hts, hps]

/-- The row/column slice of an interior site at index 200 on a length-500
axis selects exactly indices 199 through 201. -/
lemma inSlice_center (m : ℕ) :
    inSlice ((200:ℤ) - 1) ((200:ℤ) + 2) 500 m ↔ (199 ≤ m ∧ m ≤ 201) := by
  unfold inSlice sliceBound
  norm_num
  omega

/-- The slice of an edge site at index 0 is empty: `[-1:2]` wraps the start
to 499 which exceeds the stop, so no index is selected. -/
lemma inSlice_lowEdge (m : ℕ) :
    ¬ inSlice ((0:ℤ) - 1) ((0:ℤ) + 2) 500 m := by
  unfold inSlice sliceBound
  norm_num
  omega

/-- The slice of an edge site at index 499 truncates: `[498:501]` clamps the
stop to 500, selecting exactly indices 498 and 499. -/
lemma inSlice_highEdge (m : ℕ) :
    inSlice ((499:ℤ) - 1) ((499:ℤ) + 2) 500 m ↔ (498 ≤ m ∧ m < 500) := by
  unfold inSlice sliceBound
  norm_num

/-- Claim C3: under the single-stimulus configuration (site (200,200),
onset 0.5, duration 0.1, amplitude 1, dt = 0.01), one scheduler call at
simulated time s*dt adds exactly 1 to each of the nine cells of the 3×3
neighborhood of (200,200) precisely when 50 ≤ s ≤ 59, and changes no
other cell at any step. -/
theorem stimulus_schedule (s : ℕ) (u : F 500 500) (i j : Fin 500) :
    apply_stimuli cfgC3 u ((s : ℚ) * cfgC3.dt) i j =
      if (50 ≤ s ∧ s ≤ 59) ∧
         (199 ≤ i.val ∧ i.val ≤ 201) ∧ (199 ≤ j.val ∧ j.val ≤ 201)
      then u i j + 1 else u i j := by
  rw [apply_stimuli_single cfgC3 (1/2) (200, 200) rfl rfl]
  simp only [show cfgC3.stimulus_duration = 1/10 from rfl,
    show cfgC3.dt = 1/100 from rfl,
    show cfgC3.stimulus_amplitude = 1 from rfl]
  by_cases hA : 50 ≤ s ∧ s ≤ 59
  · rw [if_pos ((window_iff s).mpr hA)]
    simp only [stim_apply_site]
    by_cases hB : (199 ≤ i.val ∧ i.val ≤ 201) ∧ (199 ≤ j.val ∧ j.val ≤ 201)
    · rw [if_pos ⟨(inSlice_center i.val).mpr hB.1,
        (inSlice_center j.val).mpr hB.2⟩, if_pos ⟨hA, hB⟩]
    · rw [if_neg, if_neg]
      · exact fun hc => hB hc.2
      · intro hc
        exact hB ⟨(inSlice_center i.val).mp hc.1, (inSlice_center j.val).mp hc.2⟩
  · rw [if_neg, if_neg]
    · exact fun hc => hA hc.1
    · intro hc
      exact hA ((window_iff s).mp hc)

/-- Helper: with the stimulus site on the low edge (row 0), an active
scheduler call changes nothing: the row slice `[-1:2]` is empty. -/
lemma stim_low_silent (u : F 500 500) (i j : Fin 500) :
    apply_stimuli cfgLow u (51/100) i j = u i j := by
  rw [apply_stimuli_single cfgLow (1/2) (0, 200) rfl rfl]
  rw [if_pos (by norm_num [show cfgLow.stimulus_duration = 1/10 from rfl])]
  simp only [stim_apply_site]
  rw [if_neg (fun hc => inSlice_lowEdge i.val hc.1)]

/-- Claim C10: for an edge stimulus site the scheduler raises no error and
silently applies a wrong neighborhood: at site (0,200) the row slice
`[-1:2]` is empty so no cell at all receives the stimulus, and at site
(499,200) the row slice truncates to rows 498-499 so only a 2×3
neighborhood is incremented. -/
theorem stimulus_edge_silent (u : F 500 500) (i j : Fin 500) :
    apply_stimuli cfgLow u (51/100) i j = u i j ∧
    apply_stimuli cfgHigh u (51/100) i j =
      (if 498 ≤ i.val ∧ (199 ≤ j.val ∧ j.val ≤ 201) then u i j + 1
       else u i j) := by
  refine ⟨stim_low_silent u i j, ?_⟩
  rw [apply_stimuli_single cfgHigh (1/2) (499, 200) rfl rfl]
  rw [if_pos (by norm_num [show cfgHigh.stimulus_duration = 1/10 from rfl])]
  simp only [stim_apply_site,
    show cfgHigh.stimulus_amplitude = 1 from rfl]
  by_cases hB : 498 ≤ i.val ∧ (199 ≤ j.val ∧ j.val ≤ 201)
  · rw [if_pos ⟨(inSlice_highEdge i.val).mpr ⟨hB.1, i.isLt⟩,
      (inSlice_center j.val).mpr hB.2⟩, if_pos hB]
  · rw [if_neg, if_neg hB]
    intro hc
    exact hB ⟨((inSlice_highEdge i.val).mp hc.1).1,
      (inSlice_center j.val).mp hc.2⟩

/-- time_steps evaluates to 10000 for tfin = 100, dt = 0.01. -/
lemma time_steps_eq (p : Params) (h1 : p.tfin = 100) (h2 : p.dt = 1/100) :
    time_steps p = 10000 := by
  unfold time_steps
  rw [h1, h2, show (100 : ℚ) / (1/100) = ((10000 : ℕ) : ℚ) by norm_num,
    Int.floor_natCast]
  rfl

/-- Counterexample to C4: the configuration with stimulus site (0,200) --
whose 3×3 neighborhood reaches outside the grid -- is not rejected:
initialization returns the normal zero state (the source has no error
path), the driver would execute its full 10000 steps, and an active
scheduler call silently changes nothing instead of reporting an error. -/
theorem init_no_rejection_cex :
    initState cfgLow 500 500 =
      ⟨zeroF 500 500, zeroF 500 500, buildD 500 500 (1/20) (1/10)⟩ ∧
    time_steps cfgLow = 10000 ∧
    apply_stimuli cfgLow (zeroF 500 500) (51/100) = zeroF 500 500 := by
  refine ⟨rfl, time_steps_eq cfgLow rfl rfl, ?_⟩
  funext i j
  exact stim_low_silent (zeroF 500 500) i j

/-- Amended C4: initialization performs no validation at all -- every
configuration (grid ≤ 2, dt ≤ 0, out-of-bounds stimulus sites, μ2 ≤ 0
included) is accepted, producing the zero fields and the diffusion map,
and an out-of-bounds stimulus neighborhood is silently truncated or
emptied rather than reported. -/
theorem init_accepts_everything :
    (∀ (p : Params) (nx ny : ℕ), initState p nx ny =
      ⟨zeroF nx ny, zeroF nx ny, buildD nx ny p.D0 p.Dfac⟩) ∧
    (∀ u : F 500 500, apply_stimuli cfgLow u (51/100) = u) := by
  refine ⟨fun p nx ny => rfl, fun u => ?_⟩
  funext i j
  exact stim_low_silent u i j

/-- The stepper core maps the all-zero fields to all-zero fields: the
Laplacian, cubic reaction, coupling and recovery terms all vanish at the
origin. -/
lemma rk_core_zero (p : Params) {nx ny : ℕ} (DD : F nx ny) :
    rk_core p DD (zeroF nx ny) (zeroF nx ny) = (zeroF nx ny, zeroF nx ny) := by
  simp only [rk_core, Prod.mk.injEq]
  constructor
  · funext i j
    split_ifs with h
    · simp [zeroF]
    · rfl
  · funext i j
    split_ifs with h
    · simp [zeroF]
    · rfl

/-- Boundary enforcement preserves the all-zero field. -/
lemma apb_zero {nx ny : ℕ} :
    apply_periodic_boundary (zeroF nx ny) = zeroF nx ny := by
  funext i j
  unfold apply_periodic_boundary setColLast setColFirst setRowLast
    setRowFirst zeroF
  split_ifs <;> rfl

/-- A slice update with amplitude 0 is the identity. -/
lemma stim_site_zero_amp {nx ny : ℕ} (u : F nx ny) (ij : ℤ × ℤ) :
    stim_apply_site 0 u ij = u := by
  funext i j
  unfold stim_apply_site
  split_ifs <;> simp

/-- Folding identity-producing updates is the identity. -/
lemma foldl_id {α β : Type} (f : β → α → β) (hf : ∀ b a, f b a = b)
    (b : β) (l : List α) : l.foldl f b = b := by
  induction l generalizing b with
  | nil => rfl
  | cons hd tl ih => rw [List.foldl_cons, hf]; exact ih b

/-- With no configured onsets, or with amplitude zero, the scheduler is the
identity on the field. -/
lemma apply_stimuli_id (p : Params) {nx ny : ℕ} (u : F nx ny) (t : ℚ)
    (h : p.stimulus_times = [] ∨ p.stimulus_amplitude = 0) :
    apply_stimuli p u t = u := by
  rcases h with h | h
  · simp [apply_stimuli, h]
  · unfold apply_stimuli
    rw [h]
    refine foldl_id _ (fun uu st => ?_) u _
    split_ifs with hw
    · exact foldl_id _ (fun b ij => stim_site_zero_amp b ij) uu _
    · rfl

/-- The scheduler is the identity whenever no window contains t. -/
lemma apply_stimuli_inactive (p : Params) {nx ny : ℕ} (u : F nx ny) (t : ℚ)
    (h : ∀ st ∈ p.stimulus_times,
      ¬(st ≤ t ∧ t < st + p.stimulus_duration)) :
    apply_stimuli p u t = u := by
  unfold apply_stimuli
  have H : ∀ (l : List ℚ) (uu : F nx ny),
      (∀ st ∈ l, ¬(st ≤ t ∧ t < st + p.stimulus_duration)) →
      l.foldl (fun uu st =>
        if st ≤ t ∧ t < st + p.stimulus_duration then
          p.stimulus_positions.foldl
            (stim_apply_site p.stimulus_amplitude) uu
        else uu) uu = uu := by
    intro l
    induction l with
    | nil => intro uu _; rfl
    | cons hd tl ih =>
      intro uu h2
      rw [List.foldl_cons, if_neg (h2 hd (by simp))]
      exact ih uu (fun st hst => h2 st (by simp [hst]))
  exact H p.stimulus_times u h

/-- A full step from the all-zero fields: the fields stay zero except for
whatever the scheduler adds. -/
lemma rk_step_zero (p : Params) {nx ny : ℕ} (DD : F nx ny) (t : ℚ) :
    runge_kutta_step p (⟨zeroF nx ny, zeroF nx ny, DD⟩ : SimState nx ny) t =
      ⟨apply_stimuli p (zeroF nx ny) t, zeroF nx ny, DD⟩ := by
  unfold runge_kutta_step
  simp only [rk_core_zero, apb_zero]

/-- Claim C6: with an empty stimulus list or zero amplitude, the all-zero
state is a fixed point of the full step (diffusion, kinetics, boundary
enforcement, scheduling) for every number of steps. -/
theorem zero_fixed_point (p : Params) (nx ny : ℕ)
    (h : p.stimulus_times = [] ∨ p.stimulus_amplitude = 0) :
    ∀ n, (stateAt p nx ny n).u = zeroF nx ny ∧
      (stateAt p nx ny n).v = zeroF nx ny := by
  intro n
  induction n with
  | zero => exact ⟨rfl, rfl⟩
  | succ m ih =>
    obtain ⟨h1, h2⟩ := ih
    have hstep : stateAt p nx ny (m + 1) =
        runge_kutta_step p (stateAt p nx ny m) ((m : ℚ) * p.dt) := rfl
    have hrepr : stateAt p nx ny m =
        ⟨zeroF nx ny, zeroF nx ny, (stateAt p nx ny m).D⟩ := by
      apply SimState.ext
      · exact h1
      · exact h2
      · rfl
    rw [hstep, hrepr, rk_step_zero, apply_stimuli_id p _ _ h]
    exact ⟨rfl, rfl⟩

/-- Witness for C6: two steps of the stimulus-free configuration on a
3 × 3 grid keep both fields at zero. -/
theorem zero_fixed_point_witness :
    (cfgNoStim.stimulus_times = [] ∨ cfgNoStim.stimulus_amplitude = 0) ∧
    ((stateAt cfgNoStim 3 3 2).u = zeroF 3 3 ∧
     (stateAt cfgNoStim 3 3 2).v = zeroF 3 3) :=
  ⟨Or.inl rfl, zero_fixed_point cfgNoStim 3 3 (Or.inl rfl) 2⟩

/-- The driver fold over `range(N)` yields the N-step state and appends,
for exactly those steps with step % 50 == 0, the post-step field u. -/
lemma foldl_range_spec (p : Params) {nx ny : ℕ} (s0 : SimState nx ny)
    (N : ℕ) (fr : List (F nx ny)) :
    (List.range N).foldl (stepFold p) (s0, fr) =
      (stateFrom p s0 N,
       fr ++ ((List.range N).filter (fun s => s % 50 == 0)).map
         (fun s => (stateFrom p s0 (s + 1)).u)) := by
  induction N with
  | zero => simp [stateFrom]
  | succ m ih =>
    rw [List.range_succ, List.foldl_append, ih, List.filter_append,
      List.map_append]
    simp only [List.foldl_cons, List.foldl_nil]
    unfold stepFold
    by_cases hm : m % 50 = 0
    · simp [hm, stateFrom]
    · simp [hm, stateFrom]

/-- The snapshot list is the map, over the steps divisible by 50, of the
state reached after that step completes. -/
lemma simulate_eq (p : Params) (nx ny : ℕ) :
    simulate p nx ny =
      ((List.range (time_steps p)).filter (fun s => s % 50 == 0)).map
        (fun s => (stateAt p nx ny (s + 1)).u) := by
  unfold simulate stateAt
  rw [foldl_range_spec]
  simp

/-- The multiples of 50 below 50*m. -/
lemma filter_range_mul (m : ℕ) :
    (List.range (50 * m)).filter (fun s => s % 50 == 0) =
      (List.range m).map (fun t => 50 * t) := by
  induction m with
  | zero => rfl
  | succ k ih =>
    rw [Nat.mul_succ, List.range_add, List.filter_append, ih,
      List.filter_map]
    have hc : ((fun s => s % 50 == 0) ∘ (fun x => 50 * k + x)) =
        fun x => x % 50 == 0 := by
      funext x
      simp [Function.comp, Nat.mul_add_mod]
    rw [hc]
    have h50 : (List.range 50).filter (fun x => x % 50 == 0) = [0] := by
      decide
    rw [h50, List.range_succ, List.map_append]
    simp

/-- Step 0 of the reference run maps the zero fields to zero fields: no
stimulus window contains t = 0. -/
lemma refP_first_step_zero (nx ny : ℕ) :
    (stateAt refP nx ny 1).u = zeroF nx ny := by
  have h0 : stateAt refP nx ny 1 =
      runge_kutta_step refP (initState refP nx ny) (((0:ℕ) : ℚ) * refP.dt) :=
    rfl
  rw [h0]
  show (runge_kutta_step refP
    ⟨zeroF nx ny, zeroF nx ny, buildD nx ny refP.D0 refP.Dfac⟩ _).u = _
  rw [rk_step_zero]
  show apply_stimuli refP (zeroF nx ny) _ = zeroF nx ny
  apply apply_stimuli_inactive
  intro st hst
  have : st = 1/2 ∨ st = 2 := by
    simpa [refP] using hst
  rcases this with h | h <;> subst h <;> norm_num [refP]

/-- Claim C5: the reference run executes exactly 10000 steps; the snapshot
list is exactly the post-step u field at each step divisible by 50 (the
append happens after that step's stepper and scheduler have run); there
are exactly 200 snapshots (each of type F 500 500, i.e. shape 500×500);
and the first snapshot is the all-zero field. -/
theorem driver_snapshots :
    time_steps refP = 10000 ∧
    simulate refP 500 500 =
      ((List.range 10000).filter (fun s => s % 50 == 0)).map
        (fun s => (stateAt refP 500 500 (s + 1)).u) ∧
    (simulate refP 500 500).length = 200 ∧
    (simulate refP 500 500).head? = some (zeroF 500 500) := by
  have ht : time_steps refP = 10000 := time_steps_eq refP rfl rfl
  have hsim := simulate_eq refP 500 500
  rw [ht] at hsim
  have hfil : (List.range 10000).filter (fun s => s % 50 == 0) =
      (List.range 200).map (fun t => 50 * t) := by
    rw [show (10000 : ℕ) = 50 * 200 by norm_num, filter_range_mul]
  refine ⟨ht, hsim, ?_, ?_⟩
  · rw [hsim, hfil]
    simp
  · rw [hsim, hfil, show (200:ℕ) = 199 + 1 from rfl,
      List.range_succ_eq_map]
    simp [refP_first_step_zero]

/-- Claim C7: the diffusion map equals D0 = 0.05 outside rows/cols
[200, 250) and D0*Dfac = 0.005 inside, and no step of the simulation ever
writes to it: at every step n the state's D is the initially built map. -/
theorem diffusion_map_static :
    (∀ i j : Fin 500, buildD 500 500 refP.D0 refP.Dfac i j =
      if (200 ≤ i.val ∧ i.val < 250) ∧ (200 ≤ j.val ∧ j.val < 250)
      then 1/200 else 1/20) ∧
    (∀ n, (stateAt refP 500 500 n).D =
      buildD 500 500 refP.D0 refP.Dfac) := by
  constructor
  · intro i j
    unfold buildD
    norm_num [refP]
  · intro n
    induction n with
    | zero => rfl
    | succ m ih =>
      have hD : (stateAt refP 500 500 (m + 1)).D =
          (stateAt refP 500 500 m).D := rfl
      rw [hD, ih]

/-- Claim C8: with μ2 > 0 and u ≥ 0 the denominator u + μ2 of the epsilon
function is strictly positive (the division cannot blow up), the function
itself performs the unguarded division, and any u below -μ2 makes the
denominator negative. -/
theorem epsilon_denominator (p : Params) (uu vv : ℚ)
    (hmu : 0 < p.mu2) (hu : 0 ≤ uu) :
    0 < uu + p.mu2 ∧
    epsilon p uu vv = p.epsilon_0 + p.mu1 * vv / (uu + p.mu2) ∧
    ∀ w : ℚ, w < -p.mu2 → w + p.mu2 < 0 := by
  refine ⟨by linarith, rfl, fun w hw => by linarith⟩

/-- Witness for C8 at the reference μ2 = 0.3 and u = 0, v = 1. -/
theorem epsilon_denominator_witness :
    (0 < refP.mu2 ∧ (0:ℚ) ≤ 0) ∧
    (0 < (0:ℚ) + refP.mu2 ∧
     epsilon refP 0 1 = refP.epsilon_0 + refP.mu1 * 1 / ((0:ℚ) + refP.mu2) ∧
     ∀ w : ℚ, w < -refP.mu2 → w + refP.mu2 < 0) :=
  ⟨⟨by norm_num [refP], le_refl 0⟩,
   epsilon_denominator refP 0 1 (by norm_num [refP]) (le_refl 0)⟩

/-- Claim C9: two runs from configurations that agree in every parameter
(grid size, dx, dt, total time, kinetic and diffusion parameters, stimulus
list, amplitude, duration) produce identical snapshot sequences. -/
theorem simulate_deterministic (nx ny : ℕ) (p q : Params)
    (h1 : p.D0 = q.D0) (h2 : p.Dfac = q.Dfac) (h3 : p.a = q.a)
    (h4 : p.b = q.b) (h5 : p.k = q.k) (h6 : p.epsilon_0 = q.epsilon_0)
    (h7 : p.mu1 = q.mu1) (h8 : p.mu2 = q.mu2) (h9 : p.dx = q.dx)
    (h10 : p.dt = q.dt) (h11 : p.tfin = q.tfin)
    (h12 : p.stimulus_positions = q.stimulus_positions)
    (h13 : p.stimulus_times = q.stimulus_times)
    (h14 : p.stimulus_duration = q.stimulus_duration)
    (h15 : p.stimulus_amplitude = q.stimulus_amplitude) :
    simulate p nx ny = simulate q nx ny := by
  have hpq : p = q := by
    cases p
    cases q
    simp only [Params.mk.injEq]
    exact ⟨h1, h2, h3, h4, h5, h6, h7, h8, h9, h10, h11, h12, h13, h14, h15⟩
  rw [hpq]

/-- Witness for C9: the reference configuration run against itself. -/
theorem simulate_deterministic_witness :
    simulate refP 3 3 = simulate refP 3 3 :=
  simulate_deterministic 3 3 refP refP rfl rfl rfl rfl rfl rfl rfl rfl
    rfl rfl rfl rfl rfl rfl rfl
